import Mathlib

/-!
Verification of the thriftcli parsing core.

This file gives a shallow embedding, over `List Char`, of the two parsing
engines of the repository:

* `thrift_cli/thrift_parser.py` — the IDL extractor (`ThriftParser`): regex
  driven extraction of `struct` / `service` / `enum` blocks, field lines and
  endpoint lines, plus the bracket-depth-aware comma splitter
  `_split_fields_string` and the field lookups `get_fields_for_struct_name`
  and `get_fields_for_endpoint`.
* `thriftcli/java_thrift_request_body_converter.py` — the request literal
  converter (`convert`, `_clean`, `_get_key`, `_get_value`,
  `_convert_value_string`).

Python strings are modelled as `List Char` (`Chars`); Python exceptions
(`ValueError` from `str.index` / `str.rindex` / tuple unpacking, `KeyError`
from dict lookup) are modelled with `Except Unit`; Python dicts are modelled
as association lists built with last-write-wins insertion (`dinsert`).
-/

set_option linter.unusedVariables false

abbrev Chars := List Char

/-! ## Python string primitives -/

/-- Python `s.index(c)` / `s.find(c)` position: the first index of `c` in `s`,
`none` when absent (`index` raises `ValueError`, `find` returns `-1`). -/
def pyIndex (s : Chars) (c : Char) : Option Nat :=
  match s with
  | [] => none
  | x :: rest => if x == c then some 0 else (pyIndex rest c).map (fun i => i + 1)

/-- Python `s.rindex(c)`: the last index of `c` in `s`, `none` when absent. -/
def pyRindex (s : Chars) (c : Char) : Option Nat :=
  match pyIndex s.reverse c with
  | none => none
  | some i => some (s.length - 1 - i)

/-- Python `s.find(c)`: first index of `c`, or `-1`. -/
def pyFind (s : Chars) (c : Char) : Int :=
  match pyIndex s c with
  | none => -1
  | some i => (i : Int)

/-- Normalise one Python slice bound: negative indices count from the end,
then the bound is clamped into `[0, n]`. -/
def sliceIdx (n : Nat) (x : Int) : Nat :=
  if x < 0 then (x + n).toNat else min x.toNat n

/-- Python `s[a:b]` for possibly negative bounds. -/
def pySlice (s : Chars) (a b : Int) : Chars :=
  let a' := sliceIdx s.length a
  let b' := sliceIdx s.length b
  (s.drop a').take (b' - a')

/-- Python `s[a:b]` for nonnegative bounds. -/
def pySliceNat (s : Chars) (a b : Nat) : Chars :=
  (s.drop a).take (b - a)

/-- Python `s.find(c, 0, e)`: first index of `c` in `s[0:e]` (with Python's
slice normalisation of `e`), or `-1`. -/
def pyFindIn (s : Chars) (c : Char) (e : Int) : Int :=
  let e' := sliceIdx s.length e
  match pyIndex (s.take e') c with
  | none => -1
  | some i => (i : Int)

/-! ## The depth-aware comma splitter

`ThriftParser._split_fields_string` walks the string keeping a bracket depth
(`+1` on an opening delimiter, `-1` on a closing one) and cuts at every
separator seen at depth zero; the final segment is always appended.  The
Python loop keeps `last_index` and emits slices; here `cur` accumulates (in
reverse) the characters seen since the last cut, which yields the same
segments.  The depth is an `Int`: in Python it can go negative, and a comma
at negative depth is not a separator. -/

def splitFieldsGo (opens closes : List Char) (sep : Char) :
    Int → Chars → Chars → List Chars
  | _, cur, [] => [cur.reverse]
  | depth, cur, c :: rest =>
    if opens.contains c then splitFieldsGo opens closes sep (depth + 1) (c :: cur) rest
    else if closes.contains c then splitFieldsGo opens closes sep (depth - 1) (c :: cur) rest
    else if c == sep && depth == 0 then
      cur.reverse :: splitFieldsGo opens closes sep depth [] rest
    else splitFieldsGo opens closes sep depth (c :: cur) rest

/-- `ThriftParser._split_fields_string` (thrift_cli/thrift_parser.py):
increments depth on `<`, decrements on `>`, splits on `,` at depth zero. -/
def split_fields_string (s : Chars) : List Chars :=
  splitFieldsGo ['<'] ['>'] ',' 0 [] s

/-- Modelled from the spec: the generalized `ThriftParser.split_fields_string`
of the thriftcli package (thriftcli/thrift_parser.py is not under src/; only
its caller `convert` is).  Per the spec it is the same splitter as
`_split_fields_string`, with configurable delimiter sets: entering any
opening delimiter increments depth, leaving any closing one decrements it,
and the separator cuts only at depth zero. -/
def split_fields_string_delims (opens closes : List Char) (sep : Char) (s : Chars) :
    List Chars :=
  splitFieldsGo opens closes sep 0 [] s

/-! ## Values and the JSON literal fallback -/

/-- A converted request-literal value: string, integer, boolean, null, list,
or nested argument mapping (Python `str` / `int` / `bool` / `None` / `list` /
`dict`). -/
inductive PyVal where
  | pInt (n : Int)
  | pStr (s : Chars)
  | pBool (b : Bool)
  | pNull
  | pList (l : List PyVal)
  | pDict (d : List (Chars × PyVal))

/-- Python-dict last-write-wins insertion on an association list: an existing
key is updated in place, a fresh key is appended. -/
def dinsert {α : Type} (d : List (Chars × α)) (k : Chars) (v : α) : List (Chars × α) :=
  if d.any (fun p => p.1 == k) then d.map (fun p => if p.1 == k then (k, v) else p)
  else d ++ [(k, v)]

/-- Association-list lookup (Python dict indexing, `none` for `KeyError`). -/
def dlookup {α : Type} (d : List (Chars × α)) (k : Chars) : Option α :=
  match d.find? (fun p => p.1 == k) with
  | some p => some p.2
  | none => none

/-- JSON whitespace. -/
def isJsonWs (c : Char) : Bool :=
  c == ' ' || c == '\t' || c == '\n' || c == '\r'

/-- Scan a JSON string body up to the closing quote.  Modelled from the spec:
`json.loads` is the standard library; escape sequences are outside the
fragment exercised by the verified properties and are rejected. -/
def jsonStrGo : Chars → Option (Chars × Chars)
  | [] => none
  | c :: rest =>
    if c == '"' then some ([], rest)
    else if c == '\\' then none
    else
      match jsonStrGo rest with
      | some (a, r) => some (c :: a, r)
      | none => none

/-- Digits to an integer value. -/
def digitsToInt (ds : Chars) : Int :=
  ds.foldl (fun a c => a * 10 + ((c.toNat : Int) - 48)) 0

/-- Parse a JSON integer at the head of `s` (sign and digits).  Modelled from
the spec: fractional and exponent forms (floating point) are outside the
fragment exercised by the verified properties and are rejected. -/
def jsonNum (s : Chars) : Option (PyVal × Chars) :=
  let (neg, s1) := match s with
    | '-' :: rest => (true, rest)
    | _ => (false, s)
  let ds := s1.takeWhile Char.isDigit
  if ds.isEmpty then none
  else
    let rest := s1.drop ds.length
    match rest with
    | c :: _ => if c == '.' || c == 'e' || c == 'E' then none
                else some (.pInt (if neg then -(digitsToInt ds) else digitsToInt ds), rest)
    | [] => some (.pInt (if neg then -(digitsToInt ds) else digitsToInt ds), [])

/-- Parse a nonempty comma-separated JSON value list followed by `]`, given a
parser `pv` for one value; the fuel bounds the element count. -/
def jsonArrGoWith (pv : Chars → Option (PyVal × Chars)) :
    Nat → Chars → Option (List PyVal × Chars)
  | 0, _ => none
  | fuel + 1, s =>
    match pv s with
    | none => none
    | some (v, r) =>
      match r.dropWhile isJsonWs with
      | ',' :: r' =>
        match jsonArrGoWith pv fuel (r'.dropWhile isJsonWs) with
        | some (l, r'') => some (v :: l, r'')
        | none => none
      | ']' :: r' => some ([v], r')
      | _ => none

/-- Parse one JSON value; the fuel bounds the array nesting depth. -/
def jsonVal : Nat → Chars → Option (PyVal × Chars)
  | 0, _ => none
  | fuel + 1, s =>
    match s with
    | [] => none
    | c :: rest =>
      if c == 't' then
        if rest.take 3 == ['r', 'u', 'e'] then some (.pBool true, rest.drop 3) else none
      else if c == 'f' then
        if rest.take 4 == ['a', 'l', 's', 'e'] then some (.pBool false, rest.drop 4) else none
      else if c == 'n' then
        if rest.take 3 == ['u', 'l', 'l'] then some (.pNull, rest.drop 3) else none
      else if c == '"' then
        match jsonStrGo rest with
        | some (a, r) => some (.pStr a, r)
        | none => none
      else if c == '[' then
        match rest.dropWhile isJsonWs with
        | ']' :: r => some (.pList [], r)
        | r => match jsonArrGoWith (jsonVal fuel) (r.length + 1) r with
               | some (l, r') => some (.pList l, r')
               | none => none
      else jsonNum s

/-- Modelled from the spec: the standard-library `json.loads` on the literal
fragment the spec names (integer, boolean, null, double-quoted string,
bracketed list), `none` for a parse failure (`ValueError`). -/
def json_loads (s : Chars) : Option PyVal :=
  match jsonVal (s.length + 1) (s.dropWhile isJsonWs) with
  | some (v, rest) => if (rest.dropWhile isJsonWs).isEmpty then some v else none
  | none => none

/-! ## The request literal converter
(`thriftcli/java_thrift_request_body_converter.py`)

`convert` recurses through `_get_value` and `_convert_value_string`; the
recursion is embedded with fuel (`convertFuel`), with the helpers taking the
recursive conversion function as a parameter.  `convert_unfold` below
recovers the Python-style unguarded recursive equation. -/

abbrev PyDict := List (Chars × PyVal)

/-- `_clean`: if the body has a `:` and a `(` with the `(` first, keep the
text between the first `(` and the last `)`; the `try/except ValueError`
leaves the body unchanged when `:`, `(` or `)` is absent. -/
def clean (rb : Chars) : Chars :=
  match pyIndex rb ':' with
  | none => rb
  | some ci =>
    match pyIndex rb '(' with
    | none => rb
    | some oi =>
      if oi < (ci : Int) then
        match pyRindex rb ')' with
        | none => rb
        | some cp => pySliceNat rb (oi + 1) cp
      else rb

/-- `_get_key`: `find(':')`, `find('(', 0, colon_index)` and the slice
`field_string[open_paren_index+1:colon_index]`, with Python's `-1`
conventions. -/
def get_key (fs : Chars) : Chars :=
  let ci := pyFind fs ':'
  let oi := pyFindIn fs '(' ci
  pySlice fs (oi + 1) ci

/-- `json.loads(value_string)` with the raw-string fallback of
`_convert_value_string`'s inner `try/except`. -/
def json_fallback (s : Chars) : PyVal :=
  match json_loads s with
  | some v => v
  | none => .pStr s

/-- `_convert_value_string`, with the recursive top-level conversion passed
in as `conv`.  When both `(` and `)` are found, the text strictly between
the first `(` and the last `)` is converted by `conv`; a `ValueError`
escaping `conv` is caught and the (rebound) inner text goes through the
`json.loads` / raw-string fallback.  When `(` or `)` is absent the original
text goes through the same fallback. -/
def convert_value_string_with (conv : Chars → Except Unit PyDict) (vs : Chars) :
    Except Unit PyVal :=
  match pyIndex vs '(', pyRindex vs ')' with
  | some oi, some cp =>
    let inner := pySliceNat vs (oi + 1) cp
    match conv inner with
    | .ok d => .ok (.pDict d)
    | .error _ => .ok (json_fallback inner)
  | _, _ => .ok (json_fallback vs)

/-- `_get_value`: `field_string.index(':')` raises (`error`) when there is no
colon; otherwise the text after the colon is converted. -/
def get_value_with (conv : Chars → Except Unit PyDict) (fs : Chars) :
    Except Unit PyVal :=
  match pyIndex fs ':' with
  | none => .error ()
  | some ci => convert_value_string_with conv (fs.drop (ci + 1))

/-- `_convert_from_field_strings`: the dict comprehension
`{_get_key(f): _get_value(f) for f in field_strings}` built in iteration
order; a `ValueError` from `_get_value` propagates. -/
def convert_fields_with (conv : Chars → Except Unit PyDict) :
    PyDict → List Chars → Except Unit PyDict
  | acc, [] => .ok acc
  | acc, fs :: rest =>
    match get_value_with conv fs with
    | .error e => .error e
    | .ok v => convert_fields_with conv (dinsert acc (get_key fs) v) rest

/-- One level of `convert`: clean, split at top-level commas (tracking depth
jointly across `(`/`)` and `[`/`]`), then build the argument dict. -/
def convert_step (conv : Chars → Except Unit PyDict) (rb : Chars) : Except Unit PyDict :=
  convert_fields_with conv []
    (split_fields_string_delims ['(', '['] [')', ']'] ',' (clean rb))

/-- Fuelled top-level conversion. -/
def convertFuel : Nat → Chars → Except Unit PyDict
  | 0, _ => .error ()
  | f + 1, rb => convert_step (convertFuel f) rb

/-- `convert`: the Java Thrift request body to an argument dict.  The fuel
`rb.length + 1` always suffices (`convert_unfold`). -/
def convert (rb : Chars) : Except Unit PyDict :=
  convertFuel (rb.length + 1) rb

/-- `_convert_value_string` proper (recursing through `convert`). -/
def convert_value_string (vs : Chars) : Except Unit PyVal :=
  convert_value_string_with convert vs

/-- `_get_value` proper. -/
def get_value (fs : Chars) : Except Unit PyVal :=
  get_value_with convert fs

/-! ## A backtracking regex engine

`fields_regex` and `endpoints_regex` are embedded as ASTs for a small
backtracking engine whose candidate order reproduces Python `re` semantics:
alternation tries the left branch first, `?` tries the present branch first,
and `*`/`+` (which in these patterns only ever wrap single-character
classes) are greedy, yielding longer runs first.  `matchRgx` returns every
way to match, in backtracking priority order; the head is Python's match. -/

inductive Rgx where
  | eps
  | cls (p : Char → Bool)
  | lit (cs : Chars)
  | seq (a b : Rgx)
  | alt (a b : Rgx)
  | opt (a : Rgx)
  | star (p : Char → Bool)
  | plus (p : Char → Bool)
  | grp (i : Nat) (a : Rgx)
  | bol

/-- Group captures: `(group index, start, end)` triples, most recent first. -/
abbrev Caps := List (Nat × Nat × Nat)

/-- Length of the maximal run of `p`-characters starting at `pos`. -/
def runLen (p : Char → Bool) (text : Chars) (pos : Nat) : Nat :=
  ((text.drop pos).takeWhile p).length

/-- All matches of `r` in `text` at `pos`: end positions with captures, in
backtracking priority order. -/
def matchRgx : Rgx → Chars → Nat → Caps → List (Nat × Caps)
  | .eps, _, pos, caps => [(pos, caps)]
  | .cls p, text, pos, caps =>
    match text[pos]? with
    | some c => if p c then [(pos + 1, caps)] else []
    | none => []
  | .lit cs, text, pos, caps =>
    if cs.isPrefixOf (text.drop pos) then [(pos + cs.length, caps)] else []
  | .seq a b, text, pos, caps =>
    (matchRgx a text pos caps).flatMap (fun r => matchRgx b text r.1 r.2)
  | .alt a b, text, pos, caps => matchRgx a text pos caps ++ matchRgx b text pos caps
  | .opt a, text, pos, caps => matchRgx a text pos caps ++ [(pos, caps)]
  | .star p, text, pos, caps =>
    let n := runLen p text pos
    (List.range (n + 1)).map (fun k => (pos + (n - k), caps))
  | .plus p, text, pos, caps =>
    let n := runLen p text pos
    (List.range n).map (fun k => (pos + (n - k), caps))
  | .grp i a, text, pos, caps =>
    (matchRgx a text pos caps).map (fun r => (r.1, (i, pos, r.1) :: r.2))
  | .bol, text, pos, caps =>
    if pos == 0 then [(pos, caps)]
    else
      match text[pos - 1]? with
      | some c => if c == '\n' then [(pos, caps)] else []
      | none => []

/-- The span captured by group `i` (the most recent capture). -/
def capLookup (caps : Caps) (i : Nat) : Option (Nat × Nat) :=
  match caps.find? (fun t => t.1 == i) with
  | some t => some t.2
  | none => none

/-- The text captured by group `i`, `[]` when the group did not participate
(Python `findall` reports `''` for such groups). -/
def capStr (text : Chars) (caps : Caps) (i : Nat) : Chars :=
  match capLookup caps i with
  | some (s, e) => (text.drop s).take (e - s)
  | none => []

/-- The tuple of the `ng` group strings of a match. -/
def groupsOf (text : Chars) (ng : Nat) (caps : Caps) : List Chars :=
  (List.range ng).map (fun i => capStr text caps (i + 1))

/-- Python's match at `pos`: the first candidate in backtracking order. -/
def reMatchAt (r : Rgx) (text : Chars) (pos : Nat) : Option (Nat × Caps) :=
  (matchRgx r text pos []).head?

/-- `re.findall` scan: try each position left to right, emit the group tuple
of each match and resume after it (positions advance by one on failure or on
an empty match). -/
def reFindallGo (r : Rgx) (ng : Nat) (text : Chars) : Nat → Nat → List (List Chars)
  | 0, _ => []
  | fuel + 1, pos =>
    if pos > text.length then []
    else
      match reMatchAt r text pos with
      | some (e, caps) =>
        groupsOf text ng caps :: reFindallGo r ng text fuel (if e ≤ pos then pos + 1 else e)
      | none => reFindallGo r ng text fuel (pos + 1)

/-- `pattern.findall(text)` for a pattern with `ng` capturing groups. -/
def reFindall (r : Rgx) (ng : Nat) (text : Chars) : List (List Chars) :=
  reFindallGo r ng text (text.length + 1) 0

/-! ## Character classes of the Thrift patterns (Python 2 ASCII semantics) -/

/-- `[\r\t ]`. -/
def isWsRT (c : Char) : Bool := c == '\r' || c == '\t' || c == ' '

/-- `\s` = `[ \t\n\r\f\v]`. -/
def isWsAll (c : Char) : Bool :=
  c == ' ' || c == '\t' || c == '\n' || c == '\r' || c == '\x0b' || c == '\x0c'

/-- `\w` = `[a-zA-Z0-9_]`. -/
def isWordC (c : Char) : Bool := c.isAlpha || c.isDigit || c == '_'

/-- `[\d+]`: one digit or a literal `+` (note: a single character class, not
`\d+`). -/
def isDigitPlus (c : Char) : Bool := c.isDigit || c == '+'

/-- `[^\n=]`. -/
def isNotNlEq (c : Char) : Bool := !(c == '\n' || c == '=')

/-- `[^,\s]`. -/
def isNotCommaWs (c : Char) : Bool := !(c == ',' || isWsAll c)

/-- `[,|\n]`. -/
def isCommaPipeNl (c : Char) : Bool := c == ',' || c == '|' || c == '\n'

/-- `[^\n]`. -/
def isNotNl (c : Char) : Bool := !(c == '\n')

/-- `[a-zA-Z0-9: ,<>]`. -/
def isParamC (c : Char) : Bool :=
  c.isAlpha || c.isDigit || c == ':' || c == ' ' || c == ',' || c == '<' || c == '>'

/-- Right-nested sequence of regexes. -/
def seqL : List Rgx → Rgx
  | [] => .eps
  | [r] => r
  | r :: rest => .seq r (seqL rest)

/-- `fields_regex`:
`^[\r\t ]*([\d+]):\s*(optional|required)?\s*([^\n=]+)?\s+(\w+)(?:\s*=\s*([^,\s]+))?[,|\n]`
(MULTILINE). -/
def fieldsRe : Rgx :=
  seqL [.bol, .star isWsRT, .grp 1 (.cls isDigitPlus), .lit [':'],
    .star isWsAll,
    .opt (.grp 2 (.alt (.lit ("optional".toList)) (.lit ("required".toList)))),
    .star isWsAll, .opt (.grp 3 (.plus isNotNlEq)), .plus isWsAll,
    .grp 4 (.plus isWordC),
    .opt (seqL [.star isWsAll, .lit ['='], .star isWsAll, .grp 5 (.plus isNotCommaWs)]),
    .cls isCommaPipeNl]

/-- `endpoints_regex`:
`^[\r\t ]*(oneway)?\s*([^\n]*)\s+(\w+)\(([a-zA-Z0-9: ,<>]*)\)` (MULTILINE). -/
def endpointsRe : Rgx :=
  seqL [.bol, .star isWsRT, .opt (.grp 1 (.lit ("oneway".toList))),
    .star isWsAll, .grp 2 (.star isNotNl), .plus isWsAll, .grp 3 (.plus isWordC),
    .lit ['('], .grp 4 (.star isParamC), .lit [')']]

/-! ## The IDL extractor data model

`ThriftStruct`, `ThriftStruct.Field`, `ThriftService` and
`ThriftService.Endpoint` live in thrift_cli files that are not under src/.
Modelled from the spec: plain data holders; each record holds exactly the
arguments the in-src constructor calls supply.  Note that
`_construct_field_from_field_match` passes the field's index, type, name, a
boolean `oneway` flag and the default — the spec's tri-state `required`
attribute has no corresponding constructor argument — and that
`_parse_endpoints_from_service_definition` passes the raw `(oneway)?` group
string to `Endpoint`. -/

structure TField where
  index : Chars
  type : Chars
  name : Chars
  oneway : Bool
  default : Option Chars
deriving DecidableEq

structure TEndpoint where
  returnType : Chars
  name : Chars
  fields : List (Chars × TField)
  oneway : Chars
deriving DecidableEq

structure TService where
  name : Chars
  endpoints : List (Chars × TEndpoint)
deriving DecidableEq

structure TStruct where
  name : Chars
  fields : List (Chars × TField)
deriving DecidableEq

/-- `ThriftParser.Result`: structs and services keyed by name, plus the set
of enum names.  The Python `set` is modelled as the list of names in match
order with duplicates removed (`List.dedup` keeps first occurrences, which
agrees with set membership). -/
structure TResult where
  structs : List (Chars × TStruct)
  services : List (Chars × TService)
  enums : List Chars
deriving DecidableEq

/-- `_construct_field_from_field_match`: unpacks the five-group match tuple
`(index, oneway, return_type, name, default)` — the second group is in fact
the `(optional|required)?` qualifier — computes `oneway = oneway == 'oneway'`
and `default = default if len(default) else None`, and builds the Field. -/
def construct_field_from_field_match (m : List Chars) : TField :=
  let index := m.getD 0 []
  let oneway := m.getD 1 []
  let rtype := m.getD 2 []
  let nm := m.getD 3 []
  let dflt := m.getD 4 []
  { index := index, type := rtype, name := nm,
    oneway := oneway == ("oneway".toList),
    default := if dflt.length == 0 then none else some dflt }

/-- `_parse_fields_from_struct_definition`: all `fields_regex` matches in the
definition, constructed and keyed by field name (last write wins). -/
def parse_fields_from_struct_definition (d : Chars) : List (Chars × TField) :=
  let fields := (reFindall fieldsRe 5 d).map construct_field_from_field_match
  fields.foldl (fun acc f => dinsert acc f.name f) []

/-- The body of `_parse_fields_from_fields_string` after the split: run
`fields_regex` on each substring plus a trailing newline, keep the first
match of each substring that has one, and construct the fields.  Substrings
with no match are dropped. -/
def fields_from_field_strings (field_strings : List Chars) : List TField :=
  let field_matches := field_strings.map (fun s => reFindall fieldsRe 5 (s ++ ['\n']))
  let heads := (field_matches.filter (fun l => !l.isEmpty)).map (fun l => l.headD [])
  heads.map construct_field_from_field_match

/-- `_parse_fields_from_fields_string`: split the parameter list at
top-level commas (`<`/`>` depth), then parse each substring. -/
def parse_fields_from_fields_string (fs : Chars) : List TField :=
  fields_from_field_strings (split_fields_string fs)

/-- `_parse_endpoints_from_service_definition`: all `endpoints_regex` matches
in the service definition; `zip(*endpoint_matches)` unpacked into four
variables raises `ValueError` when there are no matches (`zip(*[]) == []`).
Each match's parameter string is parsed into fields keyed by name, and the
endpoints are keyed by endpoint name (last write wins). -/
def parse_endpoints_from_service_definition (d : Chars) :
    Except Unit (List (Chars × TEndpoint)) :=
  let ms := reFindall endpointsRe 4 d
  if ms.isEmpty then .error ()
  else
    let eps := ms.map (fun m =>
      let fl := parse_fields_from_fields_string (m.getD 3 [])
      let fd := fl.foldl (fun acc f => dinsert acc f.name f) []
      TEndpoint.mk (m.getD 1 []) (m.getD 2 []) fd (m.getD 0 []))
    .ok (eps.foldl (fun acc e => dinsert acc e.name e) [])

/-! ## The block extractor

`structs_regex` = `^([\r\t ]*?struct (\w+)[^}]+})`, and likewise for
`service` and `enum` (the enum pattern has no outer group, so its `findall`
yields names only).  On this pattern the backtracking search is
deterministic: a match can only start at a line start; the lazy `[\r\t ]*?`
must consume exactly the whitespace run (no whitespace character starts the
keyword); `(\w+)` takes the maximal word run, except that when the next
character is `}` (so `[^}]+` cannot start) it gives back one character; and
`[^}]+}` then extends to the first `}`.  `tryBlockAt` implements exactly
this; `findBlocksGo` is the `findall` scan, resuming after each match. -/

def tryBlockAt (kw : Chars) (s : Chars) : Option (Chars × Chars × Chars) :=
  let ws := s.takeWhile isWsRT
  let s1 := s.drop ws.length
  if (kw ++ [' ']).isPrefixOf s1 then
    let s2 := s1.drop (kw.length + 1)
    let nm := s2.takeWhile isWordC
    if nm.isEmpty then none
    else
      let s3 := s2.drop nm.length
      match s3 with
      | [] => none
      | c :: rest3 =>
        if c == '\x7d' then
          if 2 ≤ nm.length then
            some (ws ++ kw ++ [' '] ++ nm ++ ['\x7d'], nm.dropLast, rest3)
          else none
        else
          let pre := s3.takeWhile (fun x => !(x == '\x7d'))
          match s3.drop pre.length with
          | '\x7d' :: rest => some (ws ++ kw ++ [' '] ++ nm ++ pre ++ ['\x7d'], nm, rest)
          | _ => none
  else none

def findBlocksGo (kw : Chars) : Nat → Bool → Chars → List (Chars × Chars)
  | 0, _, _ => []
  | _ + 1, _, [] => []
  | fuel + 1, atStart, c :: rest =>
    if atStart then
      match tryBlockAt kw (c :: rest) with
      | some (whole, nm, r) => (whole, nm) :: findBlocksGo kw fuel false r
      | none => findBlocksGo kw fuel (c == '\n') rest
    else findBlocksGo kw fuel (c == '\n') rest

/-- `findall` of a block pattern: `(definition, name)` pairs. -/
def findBlocks (kw : Chars) (text : Chars) : List (Chars × Chars) :=
  findBlocksGo kw (text.length + 1) true text

def structKw : Chars := "struct".toList
def serviceKw : Chars := "service".toList
def enumKw : Chars := "enum".toList

/-- `_parse_struct_definitions`: `{name: definition}` over the struct
matches. -/
def parse_struct_definitions (content : Chars) : List (Chars × Chars) :=
  (findBlocks structKw content).foldl (fun acc p => dinsert acc p.2 p.1) []

/-- `_parse_structs`. -/
def parse_structs (content : Chars) : List (Chars × TStruct) :=
  (parse_struct_definitions content).map
    (fun p => (p.1, TStruct.mk p.1 (parse_fields_from_struct_definition p.2)))

/-- `_parse_service_definitions`. -/
def parse_service_definitions (content : Chars) : List (Chars × Chars) :=
  (findBlocks serviceKw content).foldl (fun acc p => dinsert acc p.2 p.1) []

/-- The `{name: endpoints}` comprehension of `_parse_services`: the first
definition whose endpoint parse raises propagates the error. -/
def servicesGo : List (Chars × Chars) → Except Unit (List (Chars × TService))
  | [] => .ok []
  | (n, d) :: rest =>
    match parse_endpoints_from_service_definition d with
    | .error e => .error e
    | .ok eps =>
      match servicesGo rest with
      | .error e => .error e
      | .ok tl => .ok ((n, TService.mk n eps) :: tl)

/-- `_parse_services`. -/
def parse_services (content : Chars) : Except Unit (List (Chars × TService)) :=
  match servicesGo (parse_service_definitions content) with
  | .error e => .error e
  | .ok svs => .ok (svs.foldl (fun acc p => dinsert acc p.1 p.2) [])

/-- `_parse_enums`: `set(enums_regex.findall(content))`. -/
def parse_enums (content : Chars) : List Chars :=
  ((findBlocks enumKw content).map (fun p => p.2)).dedup

/-- `ThriftParser.parse` on already-loaded file content (the file read is an
external collaborator): structs, then services (whose parse may raise), then
enums. -/
def parseContent (content : Chars) : Except Unit TResult :=
  match parse_services content with
  | .error e => .error e
  | .ok svs => .ok (TResult.mk (parse_structs content) svs (parse_enums content))

/-- `ThriftParser.get_fields_for_struct_name`: dict indexing raises
`KeyError` when the struct name is absent. -/
def get_fields_for_struct_name (r : TResult) (nm : Chars) :
    Except Unit (List (Chars × TField)) :=
  match dlookup r.structs nm with
  | none => .error ()
  | some st => .ok st.fields

/-- `ThriftParser.get_fields_for_endpoint`: dict indexing raises `KeyError`
when the service name or the method name is absent. -/
def get_fields_for_endpoint (r : TResult) (sn mn : Chars) :
    Except Unit (List (Chars × TField)) :=
  match dlookup r.services sn with
  | none => .error ()
  | some sv =>
    match dlookup sv.endpoints mn with
    | none => .error ()
    | some ep => .ok ep.fields

/-! ## Well-formed block decompositions (for the extraction theorem)

`RawBlock` describes one top-level `struct NAME { ... }` / `service` /
`enum` block: optional leading whitespace, the keyword at the beginning of a
line, the name, the text `pre` between the name and the opening brace, and
the brace-delimited body `inner`.  `assembleText` interleaves rendered
blocks with arbitrary surrounding garbage. -/

inductive BKind where
  | bstruct
  | bservice
  | benum
deriving DecidableEq

def kindKw : BKind → Chars
  | .bstruct => structKw
  | .bservice => serviceKw
  | .benum => enumKw

structure RawBlock where
  kind : BKind
  indent : Chars
  name : Chars
  pre : Chars
  inner : Chars

def renderBlock (b : RawBlock) : Chars :=
  b.indent ++ kindKw b.kind ++ [' '] ++ b.name ++ b.pre ++ ['\x7b'] ++ b.inner ++ ['\x7d']

/-- Shape conditions making a rendered block a block in the sense of the
spec: whitespace indent, nonempty word-character name, no closing brace
before the final one, and the name not running into the following text. -/
def BlockWF (b : RawBlock) : Prop :=
  (∀ c ∈ b.indent, isWsRT c = true) ∧
  b.name ≠ [] ∧
  (∀ c ∈ b.name, isWordC c = true) ∧
  (∀ c ∈ b.pre, c ≠ '\x7d') ∧
  (∀ c ∈ b.inner, c ≠ '\x7d') ∧
  b.pre.head?.all (fun c => !(isWordC c)) = true

/-- The scan state (`atStart`) left after walking `g` when entering with
`aSt`: the last character decides whether the next position is a line
start. -/
def endNl (aSt : Bool) : Chars → Bool
  | [] => aSt
  | c :: rest => endNl (c == '\n') rest

/-- `ScanClean kw aSt g`: walking `g` (entered with line-start flag `aSt`),
no probed position starts a `kw` block match, whatever text follows `g`.
This is the formalisation of "unrelated surrounding text" for the block
scanner. -/
def ScanClean (kw : Chars) : Bool → Chars → Prop
  | _, [] => True
  | aSt, c :: rest =>
    (aSt = true → ∀ tl, tryBlockAt kw (c :: (rest ++ tl)) = none) ∧
    ScanClean kw (c == '\n') rest

def kwList : List Chars := [structKw, serviceKw, enumKw]

/-- Blocks interleaved with trailing garbage. -/
def assembleTail (pairs : List (RawBlock × Chars)) : Chars :=
  pairs.foldr (fun p acc => renderBlock p.1 ++ p.2 ++ acc) []

/-- Leading garbage, then blocks each followed by garbage. -/
def assembleText (g0 : Chars) (pairs : List (RawBlock × Chars)) : Chars :=
  g0 ++ assembleTail pairs

/-- Every non-final inter-block garbage segment ends with a newline, so that
the next block starts at a line start. -/
def ChainOk : List (RawBlock × Chars) → Prop
  | [] => True
  | [_] => True
  | p :: q :: rest => p.2.getLast? = some '\n' ∧ ChainOk (q :: rest)

/-- The names of the blocks of kind `k`, in order. -/
def blocksOfKind (k : BKind) (pairs : List (RawBlock × Chars)) : List Chars :=
  ((pairs.map (fun p => p.1)).filter (fun b => b.kind == k)).map (fun b => b.name)

/-- The block scanner with fuel fixed to the sufficient `length + 1`. -/
def scanB (kw : Chars) (aSt : Bool) (s : Chars) : List (Chars × Chars) :=
  findBlocksGo kw (s.length + 1) aSt s

/-- Join segments with a single separator character between them. -/
def joinSep (sep : Char) : List Chars → Chars
  | [] => []
  | [x] => x
  | x :: y :: rest => x ++ sep :: joinSep sep (y :: rest)

/-! # Lemmas -/

/-! ## The splitter: totality, non-emptiness, losslessness -/

theorem splitFieldsGo_ne_nil (opens closes : List Char) (sep : Char) :
    ∀ (s : Chars) (d : Int) (cur : Chars),
      splitFieldsGo opens closes sep d cur s ≠ [] := by
  intro s
  induction s with
  | nil => intro d cur; simp [splitFieldsGo]
  | cons c rest ih =>
    intro d cur
    simp only [splitFieldsGo]
    split
    · exact ih _ _
    · split
      · exact ih _ _
      · split
        · simp
        · exact ih _ _

theorem joinSep_cons (sep : Char) (x : Chars) (l : List Chars) (h : l ≠ []) :
    joinSep sep (x :: l) = x ++ sep :: joinSep sep l := by
  cases l with
  | nil => exact absurd rfl h
  | cons y t => rfl

theorem splitFieldsGo_join (opens closes : List Char) (sep : Char) :
    ∀ (s : Chars) (d : Int) (cur : Chars),
      joinSep sep (splitFieldsGo opens closes sep d cur s) = cur.reverse ++ s := by
  intro s
  induction s with
  | nil => intro d cur; simp [splitFieldsGo, joinSep]
  | cons c rest ih =>
    intro d cur
    simp only [splitFieldsGo]
    split
    · rw [ih]; simp
    · split
      · rw [ih]; simp
      · split
        · next hc =>
          rw [joinSep_cons _ _ _ (splitFieldsGo_ne_nil _ _ _ _ _ _), ih]
          have hcs : c = sep := by
            rw [Bool.and_eq_true] at hc
            exact eq_of_beq hc.1
          simp [hcs]
        · rw [ih]; simp

theorem joinSep_mem_length (sep : Char) :
    ∀ (l : List Chars) (x : Chars), x ∈ l → x.length ≤ (joinSep sep l).length := by
  intro l
  induction l with
  | nil => intro x hx; cases hx
  | cons a t ih =>
    intro x hx
    cases t with
    | nil =>
      simp at hx
      simp [joinSep, hx]
    | cons b t' =>
      rw [joinSep_cons _ _ _ (by simp)]
      rcases List.mem_cons.1 hx with h | h
      · subst h; simp
      · have := ih x h
        simp only [List.length_append, List.length_cons]
        omega

/-- Each returned segment is at most as long as the input string. -/
theorem split_delims_mem_length (opens closes : List Char) (sep : Char) (s x : Chars)
    (hx : x ∈ split_fields_string_delims opens closes sep s) : x.length ≤ s.length := by
  have hjoin := splitFieldsGo_join opens closes sep s 0 []
  have := joinSep_mem_length sep (splitFieldsGo opens closes sep 0 [] s) x hx
  rw [hjoin] at this
  simpa using this

/-! ## Basic bounds for the Python string primitives -/

theorem pyIndex_some_lt (s : Chars) (c : Char) (i : Nat) (h : pyIndex s c = some i) :
    i < s.length := by
  induction s generalizing i with
  | nil => simp [pyIndex] at h
  | cons x rest ih =>
    simp only [pyIndex] at h
    split at h
    · simp at h
      simp only [List.length_cons]
      omega
    · cases hr : pyIndex rest c with
      | none => rw [hr] at h; simp at h
      | some j =>
        rw [hr] at h
        simp at h
        have := ih j hr
        simp only [List.length_cons]
        omega

theorem pyRindex_some_lt (s : Chars) (c : Char) (i : Nat) (h : pyRindex s c = some i) :
    i < s.length := by
  unfold pyRindex at h
  cases hr : pyIndex s.reverse c with
  | none => rw [hr] at h; simp at h
  | some j =>
    rw [hr] at h
    simp at h
    have hj := pyIndex_some_lt _ _ _ hr
    simp at hj
    omega

theorem pySliceNat_length_le (s : Chars) (a b : Nat) :
    (pySliceNat s a b).length ≤ s.length := by
  unfold pySliceNat
  simp

theorem clean_length_le (rb : Chars) : (clean rb).length ≤ rb.length := by
  unfold clean
  split
  · exact le_refl _
  · split
    · exact le_refl _
    · split
      · split
        · exact le_refl _
        · exact pySliceNat_length_le _ _ _
      · exact le_refl _

/-! ## Unfolding `convert`: the fuel is irrelevant beyond the input length -/

theorem convert_value_string_with_congr (conv1 conv2 : Chars → Except Unit PyDict)
    (vs : Chars) (h : ∀ t : Chars, t.length + 1 ≤ vs.length → conv1 t = conv2 t) :
    convert_value_string_with conv1 vs = convert_value_string_with conv2 vs := by
  unfold convert_value_string_with
  cases ho : pyIndex vs '(' with
  | none => rfl
  | some oi =>
    cases hc : pyRindex vs ')' with
    | none => rfl
    | some cp =>
      have hlen : (pySliceNat vs (oi + 1) cp).length + 1 ≤ vs.length := by
        have h1 : oi < vs.length := pyIndex_some_lt _ _ _ ho
        have h2 : cp < vs.length := pyRindex_some_lt _ _ _ hc
        unfold pySliceNat
        simp
        omega
      dsimp only
      rw [h _ hlen]

theorem get_value_with_congr (conv1 conv2 : Chars → Except Unit PyDict) (fs : Chars)
    (h : ∀ t : Chars, t.length + 2 ≤ fs.length → conv1 t = conv2 t) :
    get_value_with conv1 fs = get_value_with conv2 fs := by
  unfold get_value_with
  cases hi : pyIndex fs ':' with
  | none => rfl
  | some ci =>
    have hci : ci < fs.length := pyIndex_some_lt _ _ _ hi
    apply convert_value_string_with_congr
    intro t ht
    apply h
    simp at ht
    omega

theorem convert_fields_with_congr (conv1 conv2 : Chars → Except Unit PyDict) :
    ∀ (l : List Chars) (acc : PyDict),
      (∀ fs ∈ l, ∀ t : Chars, t.length + 2 ≤ fs.length → conv1 t = conv2 t) →
      convert_fields_with conv1 acc l = convert_fields_with conv2 acc l := by
  intro l
  induction l with
  | nil => intro acc h; rfl
  | cons fs rest ih =>
    intro acc h
    simp only [convert_fields_with]
    rw [get_value_with_congr conv1 conv2 fs (h fs (by simp))]
    cases get_value_with conv2 fs with
    | error e => rfl
    | ok v => exact ih _ (fun g hg => h g (by simp [hg]))

theorem convert_step_congr (conv1 conv2 : Chars → Except Unit PyDict) (rb : Chars)
    (h : ∀ t : Chars, t.length + 2 ≤ rb.length → conv1 t = conv2 t) :
    convert_step conv1 rb = convert_step conv2 rb := by
  unfold convert_step
  apply convert_fields_with_congr
  intro fs hfs t ht
  apply h
  have h1 : fs.length ≤ (clean rb).length := split_delims_mem_length _ _ _ _ _ hfs
  have h2 := clean_length_le rb
  omega

/-- Any fuel at least `length + 1` computes `convert`. -/
theorem convertFuel_eq_convert :
    ∀ (f : Nat) (rb : Chars), rb.length + 1 ≤ f → convertFuel f rb = convert rb := by
  intro f
  induction f using Nat.strong_induction_on with
  | _ f ih =>
    intro rb hf
    cases f with
    | zero => omega
    | succ f' =>
      show convert_step (convertFuel f') rb = convert rb
      have hstep : ∀ g : Nat, rb.length ≤ g → g ≤ f' →
          convert_step (convertFuel g) rb = convert_step convert rb := by
        intro g hg hgf
        apply convert_step_congr
        intro t ht
        exact ih g (by omega) t (by omega)
      rw [hstep f' (by omega) (le_refl _)]
      show convert_step convert rb = convertFuel (rb.length + 1) rb
      show convert_step convert rb = convert_step (convertFuel rb.length) rb
      rw [hstep rb.length (le_refl _) (by omega)]

/-- The Python-style recursive equation for `convert`. -/
theorem convert_unfold (rb : Chars) : convert rb = convert_step convert rb := by
  show convertFuel (rb.length + 1) rb = convert_step convert rb
  show convert_step (convertFuel rb.length) rb = convert_step convert rb
  apply convert_step_congr
  intro t ht
  exact convertFuel_eq_convert rb.length t (by omega)

/-- A field substring with no colon makes the whole dict construction raise,
wherever it sits in the list. -/
theorem convert_fields_with_error_of_no_colon (conv : Chars → Except Unit PyDict) :
    ∀ (l : List Chars) (acc : PyDict) (fs : Chars), fs ∈ l → pyIndex fs ':' = none →
      convert_fields_with conv acc l = .error () := by
  intro l
  induction l with
  | nil => intro acc fs h; cases h
  | cons g rest ih =>
    intro acc fs hmem hno
    rcases List.mem_cons.1 hmem with h | h
    · subst h
      simp only [convert_fields_with]
      unfold get_value_with
      rw [hno]
    · simp only [convert_fields_with]
      cases hg : get_value_with conv g with
      | error e => cases e; rfl
      | ok v => exact ih _ fs h hno

/-! # Claims -/

/-- Claim C1: `convert("Req(ids:[1,2,3],note:hi)")` yields the mapping
`ids ↦ [1, 2, 3], note ↦ "hi"`; the wrapper is stripped to
`ids:[1,2,3],note:hi`, and the generalized depth-aware splitter (tracking
`(`/`)` and `[`/`]` jointly, separating on commas only at depth zero) cuts
the cleaned text into exactly the two top-level field substrings. -/
theorem claim_C1 :
    convert ("Req(ids:[1,2,3],note:hi)".toList)
      = .ok [("ids".toList, .pList [.pInt 1, .pInt 2, .pInt 3]),
             ("note".toList, .pStr ("hi".toList))] ∧
    clean ("Req(ids:[1,2,3],note:hi)".toList) = "ids:[1,2,3],note:hi".toList ∧
    split_fields_string_delims ['(', '['] [')', ']'] ',' ("ids:[1,2,3],note:hi".toList)
      = ["ids:[1,2,3]".toList, "note:hi".toList] := by
  refine ⟨?_, ?_, ?_⟩ <;> rfl

/-- Claim C2 (the code contradicts it): the index pattern of `fields_regex`
is the single-character class `[\d+]`, so the two-digit field line
`10: i32 a,` matches nothing at all and is dropped; single-digit
non-contiguous out-of-order indices such as `1`, `5` are matched and kept
verbatim. -/
theorem claim_C2 :
    reFindall fieldsRe 5 ("10: i32 a,\n".toList) = [] ∧
    parse_fields_from_struct_definition ("1: i32 a,\n5: string b,\n".toList)
      = [("a".toList, TField.mk ("1".toList) ("i32".toList) ("a".toList) false none),
         ("b".toList, TField.mk ("5".toList) ("string".toList) ("b".toList) false none)] := by
  refine ⟨?_, ?_⟩ <;> rfl

/-- Claim C3 (the code contradicts it): `_construct_field_from_field_match`
compares the `(optional|required)?` capture against the string `'oneway'`
(always false) and passes only that boolean on, so the field lines
`1: required i32 x,`, `1: optional i32 x,` and `1: i32 x,` all produce the
very same Field and no tri-state requiredness is recorded. -/
theorem claim_C3 :
    parse_fields_from_struct_definition ("1: required i32 x,\n".toList)
      = parse_fields_from_struct_definition ("1: optional i32 x,\n".toList) ∧
    parse_fields_from_struct_definition ("1: required i32 x,\n".toList)
      = parse_fields_from_struct_definition ("1: i32 x,\n".toList) ∧
    parse_fields_from_struct_definition ("1: required i32 x,\n".toList)
      = [("x".toList, TField.mk ("1".toList) ("i32".toList) ("x".toList) false none)] := by
  refine ⟨?_, ?_, ?_⟩ <;> rfl

/-- Claim C4 (amended): a parameter substring on which the field pattern
finds no match contributes no field and raises no error, and a service
definition in which the endpoint pattern finds at least one match parses
without error; a service definition with no endpoint match, however, raises
(see the counterexample). -/
theorem claim_C4 :
    (∀ (l1 l2 : List Chars) (s : Chars),
        reFindall fieldsRe 5 (s ++ ['\n']) = [] →
        fields_from_field_strings (l1 ++ s :: l2) = fields_from_field_strings (l1 ++ l2)) ∧
    (∀ d : Chars, reFindall endpointsRe 4 d ≠ [] →
        ∃ eps, parse_endpoints_from_service_definition d = .ok eps) := by
  constructor
  · intro l1 l2 s h
    unfold fields_from_field_strings
    simp [h]
  · intro d h
    unfold parse_endpoints_from_service_definition
    rw [if_neg]
    · exact ⟨_, rfl⟩
    · simpa [List.isEmpty_iff] using h

/-- Claim C4, counterexample: a service block in which no line matches the
endpoint pattern makes `_parse_endpoints_from_service_definition` raise
(`zip(*[])` unpacked into four variables), rather than being skipped. -/
theorem claim_C4_cex :
    parse_endpoints_from_service_definition ("service Foo \x7b\n\x7d".toList)
      = .error () := by
  rfl

/-- Claim C4, witness. -/
theorem claim_C4_witness :
    reFindall fieldsRe 5 ("junk".toList ++ ['\n']) = [] ∧
    fields_from_field_strings ["junk".toList, "1: i32 a".toList]
      = fields_from_field_strings ["1: i32 a".toList] ∧
    reFindall endpointsRe 4 ("i32 ping()".toList) ≠ [] ∧
    ∃ eps, parse_endpoints_from_service_definition ("i32 ping()".toList) = .ok eps :=
  ⟨rfl, claim_C4.1 [] ["1: i32 a".toList] ("junk".toList) rfl, by decide,
    claim_C4.2 ("i32 ping()".toList) (by decide)⟩

/-- Claim C6: the `<`/`>` depth-aware splitter cuts
`a:list<map<string,i32>>,b:2` into exactly the two substrings
`a:list<map<string,i32>>` and `b:2` — the commas inside the generic type are
at positive depth and are not separators. -/
theorem claim_C6 :
    split_fields_string ("a:list<map<string,i32>>,b:2".toList)
      = ["a:list<map<string,i32>>".toList, "b:2".toList] := by
  rfl

/-- Claim C7: whenever the value string contains a `(` and a `)`,
`_convert_value_string` extracts the text strictly between the first `(` and
the last `)` and applies the whole top-level `convert` to it, so a
successful nested conversion becomes a nested mapping; in particular
`convert("Req(inner:Inner(x:1,y:2))")` yields `inner ↦ (x ↦ 1, y ↦ 2)`. -/
theorem claim_C7 :
    (∀ (vs : Chars) (oi cp : Nat) (d : PyDict),
        pyIndex vs '(' = some oi → pyRindex vs ')' = some cp →
        convert (pySliceNat vs (oi + 1) cp) = .ok d →
        convert_value_string vs = .ok (.pDict d)) ∧
    convert ("Req(inner:Inner(x:1,y:2))".toList)
      = .ok [("inner".toList, .pDict [("x".toList, .pInt 1), ("y".toList, .pInt 2)])] := by
  constructor
  · intro vs oi cp d ho hc hconv
    unfold convert_value_string convert_value_string_with
    rw [ho, hc]
    dsimp only
    rw [hconv]
  · rfl

/-- Claim C7, witness. -/
theorem claim_C7_witness :
    pyIndex ("Inner(x:1,y:2)".toList) '(' = some 5 ∧
    pyRindex ("Inner(x:1,y:2)".toList) ')' = some 13 ∧
    convert (pySliceNat ("Inner(x:1,y:2)".toList) 6 13)
      = .ok [("x".toList, .pInt 1), ("y".toList, .pInt 2)] ∧
    convert_value_string ("Inner(x:1,y:2)".toList)
      = .ok (.pDict [("x".toList, .pInt 1), ("y".toList, .pInt 2)]) :=
  ⟨rfl, rfl, rfl, claim_C7.1 ("Inner(x:1,y:2)".toList) 5 13 _ rfl rfl rfl⟩

/-- Claim C8 (amended): a TOP-LEVEL field substring with no `:` separator
makes `convert` raise to the caller (`field_string.index(':')` in
`_get_value` is uncaught there); in particular `convert("badfield")` fails.
At nested levels the error is swallowed instead (see the counterexample). -/
theorem claim_C8 :
    (∀ (rb : Chars) (fs : Chars),
        fs ∈ split_fields_string_delims ['(', '['] [')', ']'] ',' (clean rb) →
        pyIndex fs ':' = none →
        convert rb = .error ()) ∧
    convert ("badfield".toList) = .error () := by
  constructor
  · intro rb fs hfs hno
    rw [convert_unfold]
    unfold convert_step
    exact convert_fields_with_error_of_no_colon convert _ _ fs hfs hno
  · rfl

/-- Claim C8, counterexample: at nesting level one the missing colon does
NOT fail — the `ValueError` raised inside the recursive `convert` is caught
by `_convert_value_string`'s fallback and the inner text `bad` comes back as
a raw string, so `convert("a:B(bad)")` returns `a ↦ "bad"`. -/
theorem claim_C8_cex :
    convert ("a:B(bad)".toList) = .ok [("a".toList, .pStr ("bad".toList))] := by
  rfl

/-- Claim C8, witness. -/
theorem claim_C8_witness :
    ("badfield".toList ∈
      split_fields_string_delims ['(', '['] [')', ']'] ',' (clean ("badfield".toList))) ∧
    pyIndex ("badfield".toList) ':' = none ∧
    convert ("badfield".toList) = .error () :=
  ⟨by decide, rfl, claim_C8.1 ("badfield".toList) ("badfield".toList) (by decide) rfl⟩

/-- Claim C9: looking up a struct name absent from a `Result` raises
(`KeyError`), and so does an endpoint lookup whose service name or method
name is absent; the lookups are pure functions of the `Result`, which is
left intact. -/
theorem claim_C9 :
    (∀ (r : TResult) (nm : Chars), dlookup r.structs nm = none →
        get_fields_for_struct_name r nm = .error ()) ∧
    (∀ (r : TResult) (sn mn : Chars), dlookup r.services sn = none →
        get_fields_for_endpoint r sn mn = .error ()) ∧
    (∀ (r : TResult) (sn mn : Chars) (sv : TService), dlookup r.services sn = some sv →
        dlookup sv.endpoints mn = none → get_fields_for_endpoint r sn mn = .error ()) := by
  refine ⟨?_, ?_, ?_⟩
  · intro r nm h
    unfold get_fields_for_struct_name
    rw [h]
  · intro r sn mn h
    unfold get_fields_for_endpoint
    rw [h]
  · intro r sn mn sv h1 h2
    unfold get_fields_for_endpoint
    rw [h1]
    dsimp only
    rw [h2]

/-- Claim C9, witness. -/
theorem claim_C9_witness :
    get_fields_for_struct_name
      (TResult.mk [] [("S".toList, TService.mk ("S".toList) [])] []) ("Missing".toList)
      = .error () ∧
    get_fields_for_endpoint
      (TResult.mk [] [("S".toList, TService.mk ("S".toList) [])] []) ("Absent".toList)
      ("m".toList) = .error () ∧
    get_fields_for_endpoint
      (TResult.mk [] [("S".toList, TService.mk ("S".toList) [])] []) ("S".toList)
      ("m".toList) = .error () :=
  ⟨claim_C9.1 _ _ rfl, claim_C9.2.1 _ _ ("m".toList) rfl,
    claim_C9.2.2 _ _ _ _ rfl rfl⟩

/-- Claim C10: the splitter is total and lossless — it always returns a
nonempty list (the empty string yields `[""]`), and rejoining the segments
with single commas reproduces the input exactly. -/
theorem claim_C10 :
    (∀ s : Chars, split_fields_string s ≠ [] ∧
        joinSep ',' (split_fields_string s) = s) ∧
    split_fields_string [] = [[]] := by
  constructor
  · intro s
    refine ⟨splitFieldsGo_ne_nil _ _ _ _ _ _, ?_⟩
    have := splitFieldsGo_join ['<'] ['>'] ',' s 0 []
    simpa using this
  · rfl

/-! ## Block scanner lemmas -/

theorem takeWhile_app_of (p : Char → Bool) :
    ∀ (a b : Chars), (∀ c ∈ a, p c = true) → (∀ c, b.head? = some c → p c = false) →
      (a ++ b).takeWhile p = a := by
  intro a
  induction a with
  | nil =>
    intro b ha hb
    cases b with
    | nil => rfl
    | cons c t => simp [List.takeWhile_cons, hb c rfl]
  | cons x a' ih =>
    intro b ha hb
    simp only [List.cons_append, List.takeWhile_cons, ha x (by simp)]
    rw [ih b (fun c hc => ha c (by simp [hc])) hb]
    simp

theorem findBlocksGo_nil (kw : Chars) (f : Nat) (aSt : Bool) :
    findBlocksGo kw f aSt [] = [] := by
  cases f <;> rfl

theorem endNl_append_last (c : Char) :
    ∀ (g : Chars) (aSt : Bool), endNl aSt (g ++ [c]) = (c == '\n') := by
  intro g
  induction g with
  | nil => intro aSt; rfl
  | cons x g' ih => intro aSt; exact ih (x == '\n')

theorem scanClean_any (kw : Chars) (g : Chars) (aSt : Bool)
    (h : ScanClean kw true g) : ScanClean kw aSt g := by
  cases g with
  | nil => trivial
  | cons c rest => exact ⟨fun _ => h.1 rfl, h.2⟩

theorem scanClean_no_newline (kw : Chars) :
    ∀ (g : Chars), (∀ c ∈ g, c ≠ '\n') → ScanClean kw false g := by
  intro g
  induction g with
  | nil => intro h; trivial
  | cons c rest ih =>
    intro h
    refine ⟨fun hf => absurd hf (by simp), ?_⟩
    have hc : (c == '\n') = false := by
      simp only [beq_eq_false_iff_ne, ne_eq]
      exact h c (by simp)
    rw [hc]
    exact ih (fun x hx => h x (by simp [hx]))

/-- A successful block match consumes a nonempty prefix: the input splits as
the matched text followed by the remainder. -/
theorem tryBlockAt_decomp (kw : Chars) :
    ∀ (s w nm r : Chars), tryBlockAt kw s = some (w, nm, r) → s = w ++ r ∧ w ≠ [] := by
  intro s w nm r h
  unfold tryBlockAt at h
  dsimp only at h
  split at h
  case isFalse => exact absurd h (by simp)
  case isTrue hpre =>
    set ws := s.takeWhile isWsRT with hws
    set s1 := s.drop ws.length with hs1
    set s2 := s1.drop (kw.length + 1) with hs2
    set nm0 := s2.takeWhile isWordC with hnm0
    have hsplit0 : s = ws ++ s1 := by
      rw [hws, hs1]
      conv_lhs => rw [← List.take_append_drop (s.takeWhile isWsRT).length s]
      congr 1
      exact (List.prefix_iff_eq_take.mp (List.takeWhile_prefix isWsRT)).symm
    have hsplit1 : s1 = (kw ++ [' ']) ++ s2 := by
      obtain ⟨u, hu⟩ := List.isPrefixOf_iff_prefix.mp hpre
      rw [hs2, ← hu]
      have : (kw ++ [' ']).length = kw.length + 1 := by simp
      rw [← this, List.drop_left]
    have hsplit2 : s2 = nm0 ++ s2.drop nm0.length := by
      rw [hnm0]
      conv_lhs => rw [← List.take_append_drop (s2.takeWhile isWordC).length s2]
      congr 1
      exact (List.prefix_iff_eq_take.mp (List.takeWhile_prefix isWordC)).symm
    split at h
    case isTrue => exact absurd h (by simp)
    case isFalse hne =>
      split at h
      case h_1 => exact absurd h (by simp)
      case h_2 c rest3 hs3 =>
        split at h
        case isTrue hcb =>
          split at h
          case isTrue hlen =>
            simp only [Option.some.injEq, Prod.mk.injEq] at h
            obtain ⟨hw, hnm, hr⟩ := h
            constructor
            · rw [hsplit0, hsplit1, hsplit2, hs3, ← hw, ← hr]
              have : c = '\x7d' := eq_of_beq hcb
              simp [this]
            · rw [← hw]; simp
          case isFalse => exact absurd h (by simp)
        case isFalse hcb =>
          split at h
          all_goals try exact Option.noConfusion h
          next rest hdrop =>
            simp only [Option.some.injEq, Prod.mk.injEq] at h
            obtain ⟨hw, hnm, hr⟩ := h
            have hs3p : s2.drop nm0.length
                = (s2.drop nm0.length).takeWhile (fun x => !(x == '\x7d'))
                  ++ ('\x7d' :: rest) := by
              conv_lhs =>
                rw [← List.take_append_drop
                  ((s2.drop nm0.length).takeWhile (fun x => !(x == '\x7d'))).length
                  (s2.drop nm0.length)]
              rw [hdrop]
              congr 1
              exact (List.prefix_iff_eq_take.mp (List.takeWhile_prefix _)).symm
            constructor
            · rw [hsplit0, hsplit1, hsplit2, hs3p, ← hw, ← hr]
              simp
            · rw [← hw]; simp

/-- The scan fuel is irrelevant once it covers the input length. -/
theorem findBlocksGo_fuel (kw : Chars) :
    ∀ (f1 : Nat) (s : Chars) (aSt : Bool) (f2 : Nat), s.length ≤ f1 → s.length ≤ f2 →
      findBlocksGo kw f1 aSt s = findBlocksGo kw f2 aSt s := by
  intro f1
  induction f1 with
  | zero =>
    intro s aSt f2 h1 h2
    have hs : s = [] := List.length_eq_zero.mp (Nat.le_zero.mp h1)
    subst hs
    rw [findBlocksGo_nil, findBlocksGo_nil]
  | succ f1' ih =>
    intro s aSt f2 h1 h2
    cases s with
    | nil => rw [findBlocksGo_nil, findBlocksGo_nil]
    | cons c rest =>
      obtain ⟨f2', rfl⟩ : ∃ f2', f2 = f2' + 1 := by
        cases f2 with
        | zero => simp at h2
        | succ n => exact ⟨n, rfl⟩
      simp only [findBlocksGo]
      simp only [List.length_cons] at h1 h2
      cases aSt with
      | false =>
        simp only [Bool.false_eq_true, if_false]
        exact ih rest (c == '\n') f2' (by omega) (by omega)
      | true =>
        simp only [if_true]
        cases htry : tryBlockAt kw (c :: rest) with
        | none => exact ih rest (c == '\n') f2' (by omega) (by omega)
        | some trip =>
          obtain ⟨w, nm, r⟩ := trip
          obtain ⟨hsr, hw⟩ := tryBlockAt_decomp kw _ _ _ _ htry
          have hr : r.length ≤ rest.length := by
            have hlen : (c :: rest).length = w.length + r.length := by
              rw [hsr]; simp
            simp only [List.length_cons] at hlen
            have hw0 : w.length ≠ 0 := fun h0 => hw (List.length_eq_zero.mp h0)
            omega
          dsimp only
          rw [ih r false f2' (by omega) (by omega)]

/-- Walking clean garbage emits nothing and just updates the line-start
flag. -/
theorem findBlocksGo_skip (kw : Chars) :
    ∀ (g : Chars) (aSt : Bool) (tl : Chars) (f : Nat),
      (g ++ tl).length ≤ f → ScanClean kw aSt g →
      findBlocksGo kw f aSt (g ++ tl) = findBlocksGo kw (f - g.length) (endNl aSt g) tl := by
  intro g
  induction g with
  | nil =>
    intro aSt tl f hf hsc
    simp [endNl]
  | cons c g' ih =>
    intro aSt tl f hf hsc
    obtain ⟨f', rfl⟩ : ∃ f', f = f' + 1 := by
      cases f with
      | zero => simp at hf
      | succ n => exact ⟨n, rfl⟩
    have hlen : (g' ++ tl).length ≤ f' := by
      simp only [List.cons_append, List.length_cons] at hf
      omega
    have harith : f' - g'.length = f' + 1 - (c :: g').length := by
      simp only [List.length_cons]
      omega
    have hend : endNl aSt (c :: g') = endNl (c == '\n') g' := rfl
    show findBlocksGo kw (f' + 1) aSt (c :: (g' ++ tl)) = _
    cases aSt with
    | true =>
      simp only [findBlocksGo, if_true]
      rw [hsc.1 rfl tl]
      rw [ih (c == '\n') tl f' hlen hsc.2, ← harith, hend]
    | false =>
      simp only [findBlocksGo, Bool.false_eq_true, if_false]
      rw [ih (c == '\n') tl f' hlen hsc.2, ← harith, hend]

/-- `scanB` over clean garbage. -/
theorem scanB_skip (kw : Chars) (g : Chars) (aSt : Bool) (tl : Chars)
    (hsc : ScanClean kw aSt g) :
    scanB kw aSt (g ++ tl) = scanB kw (endNl aSt g) tl := by
  unfold scanB
  rw [findBlocksGo_skip kw g aSt tl _ (by simp) hsc]
  apply findBlocksGo_fuel
  · simp
    omega
  · omega

/-- `tryBlockAt` on a well-shaped block followed by anything: the match
consumes exactly the block and captures its name. -/
theorem tryBlockAt_layout (kw ind nm mid tl : Chars)
    (hind : ∀ c ∈ ind, isWsRT c = true)
    (hkwne : kw ≠ []) (hkw : ∀ c, kw.head? = some c → isWsRT c = false)
    (hnmne : nm ≠ []) (hnmw : ∀ c ∈ nm, isWordC c = true)
    (hmidne : mid ≠ []) (hmidnb : ∀ c ∈ mid, (c == '\x7d') = false)
    (hmidh : ∀ c, mid.head? = some c → isWordC c = false) :
    tryBlockAt kw (ind ++ (kw ++ [' '] ++ nm ++ mid ++ ['\x7d']) ++ tl)
      = some (ind ++ (kw ++ [' '] ++ nm ++ mid ++ ['\x7d']), nm, tl) := by
  obtain ⟨k0, krest, rfl⟩ := List.exists_cons_of_ne_nil hkwne
  obtain ⟨m0, mrest, rfl⟩ := List.exists_cons_of_ne_nil hmidne
  have hk0 : isWsRT k0 = false := hkw k0 rfl
  have hm0 : isWordC m0 = false := hmidh m0 rfl
  have hs : ind ++ ((k0 :: krest) ++ [' '] ++ nm ++ (m0 :: mrest) ++ ['\x7d']) ++ tl
      = ind ++ (((k0 :: krest) ++ [' ']) ++ (nm ++ ((m0 :: mrest) ++ '\x7d' :: tl))) := by
    simp
  have hws : (ind ++ (((k0 :: krest) ++ [' '])
        ++ (nm ++ ((m0 :: mrest) ++ '\x7d' :: tl)))).takeWhile isWsRT = ind := by
    apply takeWhile_app_of _ _ _ hind
    intro c hc
    simp at hc
    rw [← hc]
    exact hk0
  have htw : (nm ++ ((m0 :: mrest) ++ '\x7d' :: tl)).takeWhile isWordC = nm := by
    apply takeWhile_app_of _ _ _ hnmw
    intro c hc
    simp at hc
    rw [← hc]
    exact hm0
  have hpre : ((m0 :: mrest) ++ '\x7d' :: tl).takeWhile (fun x => !(x == '\x7d'))
      = m0 :: mrest := by
    apply takeWhile_app_of
    · intro c hc
      simp [hmidnb c hc]
    · intro c hc
      simp at hc
      rw [← hc]
      rfl
  unfold tryBlockAt
  rw [hs]
  dsimp only
  rw [hws]
  rw [List.drop_left]
  rw [if_pos (List.isPrefixOf_iff_prefix.mpr ⟨_, rfl⟩)]
  have hlen1 : ((k0 :: krest) ++ [' ']).length = (k0 :: krest).length + 1 := by simp
  rw [← hlen1, List.drop_left]
  rw [htw]
  rw [if_neg (by simp [hnmne])]
  rw [List.drop_left]
  have hm0b : (m0 == '\x7d') = false := hmidnb m0 (by simp)
  rw [hpre, List.drop_left]
  simp [hm0b]

theorem kindKw_ne_nil (k : BKind) : kindKw k ≠ [] := by
  cases k <;> decide

theorem kindKw_head_not_ws (k : BKind) :
    ∀ c : Char, (kindKw k).head? = some c → isWsRT c = false := by
  intro c h
  cases k
  all_goals
    injection h with h2
    rw [← h2]
    rfl

theorem kindKw_inj (k1 k2 : BKind) (h : kindKw k1 = kindKw k2) : k1 = k2 := by
  cases k1 <;> cases k2 <;> first | rfl | exact absurd h (by decide)

theorem kindKw_not_prefixOf (k1 k2 : BKind) (hne : k1 ≠ k2) (z : Chars) :
    ((kindKw k1) ++ [' ']).isPrefixOf (kindKw k2 ++ z) = false := by
  cases k1 <;> cases k2 <;> first | exact absurd rfl hne | rfl

/-- A well-formed block matches its own keyword exactly. -/
theorem tryBlockAt_render (b : RawBlock) (hwf : BlockWF b) (tl : Chars) :
    tryBlockAt (kindKw b.kind) (renderBlock b ++ tl) = some (renderBlock b, b.name, tl) := by
  obtain ⟨hind, hnm, hnmw, hpre, hinner, hpreh⟩ := hwf
  have hmidnb : ∀ c ∈ b.pre ++ ['\x7b'] ++ b.inner, (c == '\x7d') = false := by
    intro c hc
    simp only [List.append_assoc, List.mem_append, List.mem_singleton] at hc
    rcases hc with h | h | h
    · simp [hpre c h]
    · subst h; rfl
    · simp [hinner c h]
  have hmidh : ∀ c, (b.pre ++ ['\x7b'] ++ b.inner).head? = some c → isWordC c = false := by
    intro c hc
    cases hp : b.pre with
    | nil =>
      rw [hp] at hc
      simp at hc
      rw [← hc]
      rfl
    | cons p0 prest =>
      rw [hp] at hc
      simp at hc
      rw [← hc]
      rw [hp] at hpreh
      simpa using hpreh
  have h := tryBlockAt_layout (kindKw b.kind) b.indent b.name
    (b.pre ++ ['\x7b'] ++ b.inner) tl hind (kindKw_ne_nil _) (kindKw_head_not_ws _)
    hnm hnmw (by simp) hmidnb hmidh
  unfold renderBlock
  simp only [List.append_assoc] at h ⊢
  exact h

/-- A well-formed block of another kind does not start a match. -/
theorem tryBlockAt_none_other (b : RawBlock) (hwf : BlockWF b) (k1 : BKind)
    (hne : k1 ≠ b.kind) (tl : Chars) :
    tryBlockAt (kindKw k1) (renderBlock b ++ tl) = none := by
  obtain ⟨hind, hnm, hnmw, hpre, hinner, hpreh⟩ := hwf
  have hs : renderBlock b ++ tl
      = b.indent ++ (kindKw b.kind
          ++ ([' '] ++ b.name ++ b.pre ++ ['\x7b'] ++ b.inner ++ ['\x7d'] ++ tl)) := by
    unfold renderBlock
    simp
  have hws : (b.indent ++ (kindKw b.kind
        ++ ([' '] ++ b.name ++ b.pre ++ ['\x7b'] ++ b.inner ++ ['\x7d'] ++ tl))).takeWhile
        isWsRT = b.indent := by
    apply takeWhile_app_of _ _ _ hind
    intro c hc
    obtain ⟨k0, krest, hk⟩ := List.exists_cons_of_ne_nil (kindKw_ne_nil b.kind)
    rw [hk] at hc
    simp at hc
    rw [← hc]
    exact kindKw_head_not_ws b.kind k0 (by rw [hk]; rfl)
  unfold tryBlockAt
  rw [hs]
  dsimp only
  rw [hws, List.drop_left]
  rw [if_neg]
  simp [kindKw_not_prefixOf k1 b.kind hne]

/-- Scanning a block of the scanned kind at a line start: emit it and resume
after it. -/
theorem scanB_match (b : RawBlock) (hwf : BlockWF b) (tl : Chars) :
    scanB (kindKw b.kind) true (renderBlock b ++ tl)
      = (renderBlock b, b.name) :: scanB (kindKw b.kind) false tl := by
  have htry := tryBlockAt_render b hwf tl
  have hne : renderBlock b ++ tl ≠ [] := by
    unfold renderBlock
    simp
  obtain ⟨c0, srest, hs⟩ := List.exists_cons_of_ne_nil hne
  unfold scanB
  rw [hs]
  simp only [List.length_cons, findBlocksGo, if_true]
  rw [← hs, htry]
  dsimp only
  congr 1
  apply findBlocksGo_fuel
  · have : (renderBlock b ++ tl).length = (c0 :: srest).length := by rw [hs]
    have hlen : tl.length ≤ (renderBlock b ++ tl).length := by simp
    simp only [List.length_cons] at this
    omega
  · omega

/-- Scanning a block of a different kind at a line start: nothing is
emitted, and the scan resumes after the block with the line-start flag
cleared (a block ends in `}`). -/
theorem scanB_other (b : RawBlock) (hwf : BlockWF b) (k1 : BKind) (hne : k1 ≠ b.kind)
    (hsc : ScanClean (kindKw k1) false (renderBlock b)) (tl : Chars) :
    scanB (kindKw k1) true (renderBlock b ++ tl) = scanB (kindKw k1) false tl := by
  have hrne : renderBlock b ≠ [] := by
    unfold renderBlock
    simp
  obtain ⟨c0, srest, hs⟩ := List.exists_cons_of_ne_nil hrne
  have hsc' : ScanClean (kindKw k1) true (renderBlock b) := by
    rw [hs]
    rw [hs] at hsc
    refine ⟨fun _ tl' => ?_, hsc.2⟩
    have := tryBlockAt_none_other b hwf k1 hne tl'
    rw [hs] at this
    simpa using this
  rw [scanB_skip (kindKw k1) (renderBlock b) true tl hsc']
  congr 1
  have : renderBlock b
      = (b.indent ++ kindKw b.kind ++ [' '] ++ b.name ++ b.pre ++ ['\x7b'] ++ b.inner)
        ++ ['\x7d'] := by
    unfold renderBlock
    simp
  rw [this, endNl_append_last]
  rfl

theorem scanB_nil (kw : Chars) (aSt : Bool) : scanB kw aSt [] = [] := by
  unfold scanB
  exact findBlocksGo_nil kw _ aSt

theorem endNl_getLast (g : Chars) (aSt : Bool) (h : g.getLast? = some '\n') :
    endNl aSt g = true := by
  have hne : g ≠ [] := by
    intro h0
    rw [h0] at h
    cases h
  have hdec : g = g.dropLast ++ [g.getLast hne] := (List.dropLast_append_getLast hne).symm
  have hlast : g.getLast hne = '\n' := by
    rw [List.getLast?_eq_getLast _ hne, Option.some.injEq] at h
    exact h
  rw [hdec, endNl_append_last, hlast]
  rfl

/-- Folding fresh keys into a Python dict appends them in order. -/
theorem foldl_dinsert_fresh {α : Type} :
    ∀ (l : List (Chars × α)) (acc : List (Chars × α)),
      (l.map Prod.fst).Nodup →
      (∀ x ∈ l, ∀ q ∈ acc, q.1 ≠ x.1) →
      List.foldl (fun a kv => dinsert a kv.1 kv.2) acc l = acc ++ l := by
  intro l
  induction l with
  | nil =>
    intro acc h1 h2
    simp only [List.foldl_nil, List.append_nil]
  | cons kv rest ih =>
    intro acc h1 h2
    have hany : acc.any (fun p => p.1 == kv.1) = false := by
      rw [List.any_eq_false]
      intro q hq hbeq
      exact h2 kv (by simp) q hq (eq_of_beq hbeq)
    have hins : dinsert acc kv.1 kv.2 = acc ++ [(kv.1, kv.2)] := by
      unfold dinsert
      rw [if_neg (by simp [hany])]
    have hnd : (rest.map Prod.fst).Nodup := by
      simp only [List.map_cons, List.nodup_cons] at h1
      exact h1.2
    have hknotin : kv.1 ∉ rest.map Prod.fst := by
      simp only [List.map_cons, List.nodup_cons] at h1
      exact h1.1
    have hfresh : ∀ x ∈ rest, ∀ q ∈ acc ++ [(kv.1, kv.2)], q.1 ≠ x.1 := by
      intro x hx q hq
      rcases List.mem_append.1 hq with hq | hq
      · exact h2 x (by simp [hx]) q hq
      · simp only [List.mem_singleton] at hq
        rw [hq]
        intro heq
        exact hknotin (heq ▸ List.mem_map_of_mem Prod.fst hx)
    simp only [List.foldl_cons, hins]
    rw [ih (acc ++ [(kv.1, kv.2)]) hnd hfresh]
    simp

/-- A service definition with at least one endpoint match parses without
raising. -/
theorem parse_endpoints_ok (d : Chars) (h : reFindall endpointsRe 4 d ≠ []) :
    ∃ eps, parse_endpoints_from_service_definition d = .ok eps := by
  unfold parse_endpoints_from_service_definition
  rw [if_neg]
  · exact ⟨_, rfl⟩
  · simpa [List.isEmpty_iff] using h

/-- When every definition's endpoints parse, `servicesGo` succeeds and keeps
the names in order. -/
theorem servicesGo_ok :
    ∀ (defs : List (Chars × Chars)),
      (∀ p ∈ defs, ∃ eps, parse_endpoints_from_service_definition p.2 = .ok eps) →
      ∃ svs, servicesGo defs = .ok svs ∧ svs.map Prod.fst = defs.map Prod.fst := by
  intro defs
  induction defs with
  | nil => intro h; exact ⟨[], rfl, rfl⟩
  | cons p rest ih =>
    intro h
    obtain ⟨n, d⟩ := p
    obtain ⟨eps, heps⟩ := h (n, d) (by simp)
    obtain ⟨svs, hsvs, hnames⟩ := ih (fun q hq => h q (by simp [hq]))
    refine ⟨(n, TService.mk n eps) :: svs, ?_, ?_⟩
    · simp only [servicesGo, heps, hsvs]
    · simp [hnames]

/-- Scanning the assembled blocks-and-garbage tail for one keyword yields
exactly the blocks of that kind, in order. -/
theorem scanB_tail (k : BKind) :
    ∀ (pairs : List (RawBlock × Chars)),
      (∀ p ∈ pairs, BlockWF p.1) →
      (∀ p ∈ pairs, ∀ k1 : BKind, k1 ≠ p.1.kind →
          ScanClean (kindKw k1) false (renderBlock p.1)) →
      (∀ p ∈ pairs, ScanClean (kindKw k) true p.2) →
      ChainOk pairs →
      scanB (kindKw k) true (assembleTail pairs)
        = ((pairs.map (fun p => p.1)).filter (fun b => b.kind == k)).map
            (fun b => (renderBlock b, b.name)) := by
  intro pairs
  induction pairs with
  | nil =>
    intro _ _ _ _
    simp only [assembleTail, List.foldr_nil, List.map_nil, List.filter_nil]
    exact scanB_nil _ _
  | cons p rest ih =>
    intro hwf hic hg hchain
    obtain ⟨b, g⟩ := p
    have hassm : assembleTail ((b, g) :: rest) = renderBlock b ++ (g ++ assembleTail rest) := by
      simp [assembleTail]
    rw [hassm]
    have hrest : scanB (kindKw k) (endNl false g) (assembleTail rest)
        = ((rest.map (fun p => p.1)).filter (fun b => b.kind == k)).map
            (fun b => (renderBlock b, b.name)) := by
      cases rest with
      | nil =>
        simp only [assembleTail, List.foldr_nil, List.map_nil, List.filter_nil]
        exact scanB_nil _ _
      | cons q rest' =>
        have hend : endNl false g = true := endNl_getLast g false hchain.1
        rw [hend]
        exact ih (fun x hx => hwf x (by simp [hx])) (fun x hx => hic x (by simp [hx]))
          (fun x hx => hg x (by simp [hx])) hchain.2
    by_cases hk : b.kind = k
    · subst hk
      rw [scanB_match b (hwf (b, g) (by simp)) (g ++ assembleTail rest)]
      rw [scanB_skip _ g false _ (scanClean_any _ _ _ (hg (b, g) (by simp)))]
      rw [hrest]
      simp only [List.map_cons, List.filter_cons, beq_self_eq_true, if_true, List.map_cons]
    · have hkne : k ≠ b.kind := fun h => hk h.symm
      rw [scanB_other b (hwf (b, g) (by simp)) k hkne
        (hic (b, g) (by simp) k hkne) (g ++ assembleTail rest)]
      rw [scanB_skip _ g false _ (scanClean_any _ _ _ (hg (b, g) (by simp)))]
      rw [hrest]
      have hbk : (b.kind == k) = false := by
        simp only [beq_eq_false_iff_ne, ne_eq]
        exact hk
      simp only [List.map_cons, List.filter_cons, hbk, Bool.false_eq_true, if_false]

/-- Claim C5 (amended): for a text assembled from well-formed, distinctly
named top-level `struct`/`service`/`enum` blocks (keywords at line starts,
brace-delimited bodies) interleaved with unrelated surrounding text, and in
which every service block contains at least one endpoint-matching line,
`parse` succeeds and yields exactly the blocks, each under its kind: the
struct mapping's keys are the struct names in order, the service mapping's
keys the service names, the enum set the enum names.  Without the
endpoint-line proviso the claim fails: a service block with no
endpoint-matching line makes `parse` raise (see the counterexample). -/
theorem claim_C5 (g0 : Chars) (pairs : List (RawBlock × Chars))
    (hwf : ∀ p ∈ pairs, BlockWF p.1)
    (hic : ∀ p ∈ pairs, ∀ k1 : BKind, k1 ≠ p.1.kind →
        ScanClean (kindKw k1) false (renderBlock p.1))
    (hg : ∀ p ∈ pairs, ∀ k1 : BKind, ScanClean (kindKw k1) true p.2)
    (hg0 : ∀ k1 : BKind, ScanClean (kindKw k1) true g0)
    (hg0e : g0 = [] ∨ g0.getLast? = some '\n')
    (hchain : ChainOk pairs)
    (hnodup : (pairs.map (fun p => p.1.name)).Nodup)
    (hsvc : ∀ p ∈ pairs, p.1.kind = BKind.bservice →
        reFindall endpointsRe 4 (renderBlock p.1) ≠ []) :
    ∃ r : TResult, parseContent (assembleText g0 pairs) = .ok r ∧
      r.structs.map Prod.fst = blocksOfKind .bstruct pairs ∧
      r.services.map Prod.fst = blocksOfKind .bservice pairs ∧
      r.enums = blocksOfKind .benum pairs := by
  have hfb : ∀ k1 : BKind, findBlocks (kindKw k1) (assembleText g0 pairs)
      = ((pairs.map (fun p => p.1)).filter (fun b => b.kind == k1)).map
          (fun b => (renderBlock b, b.name)) := by
    intro k1
    show scanB (kindKw k1) true (g0 ++ assembleTail pairs) = _
    rw [scanB_skip _ g0 true _ (hg0 k1)]
    have hend : endNl true g0 = true := by
      rcases hg0e with h | h
      · rw [h]; rfl
      · exact endNl_getLast g0 true h
    rw [hend]
    exact scanB_tail k1 pairs hwf hic (fun p hp => hg p hp k1) hchain
  have hnd : ∀ k1 : BKind,
      (((pairs.map (fun p => p.1)).filter (fun b => b.kind == k1)).map
        (fun b => b.name)).Nodup := by
    intro k1
    have hsub : List.Sublist
        (((pairs.map (fun p => p.1)).filter (fun b => b.kind == k1)).map (fun b => b.name))
        ((pairs.map (fun p => p.1)).map (fun b => b.name)) :=
      List.Sublist.map _ (List.filter_sublist _)
    have heq : (pairs.map (fun p => p.1)).map (fun b => b.name)
        = pairs.map (fun p => p.1.name) := by
      rw [List.map_map]
      rfl
    rw [heq] at hsub
    exact hnodup.sublist hsub
  have hdefs : ∀ k1 : BKind,
      (findBlocks (kindKw k1) (assembleText g0 pairs)).foldl
          (fun acc p => dinsert acc p.2 p.1) []
        = ((pairs.map (fun p => p.1)).filter (fun b => b.kind == k1)).map
            (fun b => (b.name, renderBlock b)) := by
    intro k1
    rw [hfb k1]
    rw [List.foldl_map]
    have hswap : ((pairs.map (fun p => p.1)).filter (fun b => b.kind == k1)).foldl
        (fun acc b => dinsert acc b.name (renderBlock b)) []
        = (((pairs.map (fun p => p.1)).filter (fun b => b.kind == k1)).map
            (fun b => (b.name, renderBlock b))).foldl
            (fun a kv => dinsert a kv.1 kv.2) [] := by
      rw [List.foldl_map]
    rw [hswap]
    rw [foldl_dinsert_fresh _ [] ?nd (by simp)]
    · simp
    case nd =>
      rw [List.map_map]
      exact hnd k1
  have hservice_defs := hdefs .bservice
  have hok : ∀ p ∈ ((pairs.map (fun q => q.1)).filter
        (fun b => b.kind == BKind.bservice)).map (fun b => (b.name, renderBlock b)),
      ∃ eps, parse_endpoints_from_service_definition p.2 = .ok eps := by
    intro p hp
    obtain ⟨b, hb, hpb⟩ := List.mem_map.1 hp
    obtain ⟨hbm, hbk⟩ := List.mem_filter.1 hb
    obtain ⟨q, hq, hqb⟩ := List.mem_map.1 hbm
    apply parse_endpoints_ok
    rw [← hpb]
    show reFindall endpointsRe 4 (renderBlock b) ≠ []
    rw [← hqb] at hbk ⊢
    exact hsvc q hq (by simpa using hbk)
  obtain ⟨svs, hsvs, hnames⟩ := servicesGo_ok _ hok
  have hps : parse_services (assembleText g0 pairs) = .ok svs := by
    unfold parse_services parse_service_definitions
    rw [show serviceKw = kindKw .bservice from rfl, hservice_defs, hsvs]
    have hsnod : (svs.map Prod.fst).Nodup := by
      rw [hnames, List.map_map]
      exact hnd .bservice
    dsimp only
    rw [foldl_dinsert_fresh svs [] hsnod (by simp)]
    simp
  refine ⟨TResult.mk (parse_structs (assembleText g0 pairs)) svs
      (parse_enums (assembleText g0 pairs)), ?_, ?_, ?_, ?_⟩
  · unfold parseContent
    rw [hps]
  · unfold parse_structs parse_struct_definitions
    rw [show structKw = kindKw .bstruct from rfl, hdefs .bstruct]
    unfold blocksOfKind
    rw [List.map_map, List.map_map]
    rfl
  · rw [hnames]
    unfold blocksOfKind
    rw [List.map_map]
    rfl
  · unfold parse_enums
    rw [show enumKw = kindKw .benum from rfl, hfb .benum]
    rw [List.map_map]
    have : ((pairs.map (fun p => p.1)).filter (fun b => b.kind == BKind.benum)).map
        ((fun p => p.2) ∘ (fun b => (renderBlock b, b.name)))
        = blocksOfKind .benum pairs := by
      unfold blocksOfKind
      rfl
    rw [this]
    exact List.dedup_eq_self.mpr (hnd .benum)

theorem tryBlockAt_nl (k1 : BKind) (tl : Chars) :
    tryBlockAt (kindKw k1) ('\n' :: tl) = none := by
  cases k1 <;> rfl

theorem scanClean_nl (k1 : BKind) : ScanClean (kindKw k1) true ['\n'] :=
  ⟨fun _ tl => tryBlockAt_nl k1 tl, trivial⟩

/-- Claim C5, counterexample: the single well-formed top-level block
`service S {\n}` should, by the claim, yield exactly one service entry;
instead the parse raises, because the service body has no endpoint-matching
line. -/
theorem claim_C5_cex :
    parseContent ("service S \x7b\n\x7d".toList) = .error () := by
  rfl

/-- Claim C5, witness. -/
theorem claim_C5_witness :
    ∃ r : TResult,
      parseContent (assembleText []
        [(RawBlock.mk .bstruct [] ("Foo".toList) (" ".toList) (" 1: i32 a ".toList),
            "\n".toList),
         (RawBlock.mk .bservice [] ("S".toList) (" ".toList) (" i32 ping() ".toList),
            "\n".toList),
         (RawBlock.mk .benum [] ("E".toList) (" ".toList) (" A ".toList), [])])
        = .ok r ∧
      r.structs.map Prod.fst = ["Foo".toList] ∧
      r.services.map Prod.fst = ["S".toList] ∧
      r.enums = ["E".toList] := by
  exact claim_C5 []
    [(RawBlock.mk .bstruct [] ("Foo".toList) (" ".toList) (" 1: i32 a ".toList),
        "\n".toList),
     (RawBlock.mk .bservice [] ("S".toList) (" ".toList) (" i32 ping() ".toList),
        "\n".toList),
     (RawBlock.mk .benum [] ("E".toList) (" ".toList) (" A ".toList), [])]
    (by
      intro p hp
      simp only [List.mem_cons, List.not_mem_nil, or_false] at hp
      rcases hp with rfl | rfl | rfl <;> (unfold BlockWF; decide))
    (by
      intro p hp k1 hk
      apply scanClean_no_newline
      simp only [List.mem_cons, List.not_mem_nil, or_false] at hp
      rcases hp with rfl | rfl | rfl <;> decide)
    (by
      intro p hp k1
      simp only [List.mem_cons, List.not_mem_nil, or_false] at hp
      rcases hp with rfl | rfl | rfl
      · exact scanClean_nl k1
      · exact scanClean_nl k1
      · trivial)
    (fun k1 => trivial)
    (Or.inl rfl)
    ⟨rfl, rfl, trivial⟩
    (by decide)
    (by
      intro p hp
      simp only [List.mem_cons, List.not_mem_nil, or_false] at hp
      rcases hp with rfl | rfl | rfl <;> decide)
